import Mathlib

/-!
Verification of the layout / spatial-navigation engine of `chshtui`
(`src/view.rs`).  The engine arranges elements into columns, tracks a
selection coordinate, computes 2D cursor movement and inverts mouse
coordinates back to selections.

Embedding conventions:
* `u16`/`usize` values are `Nat`.  All arithmetic in the source is
  `saturating_sub`/checked-guarded subtraction, which coincides with `Nat`
  subtraction, except the single expression `new_area.x + new_area.width - 1`
  in `Layout::left` which can underflow `u16`; it is embedded with explicit
  two's-complement wrap (`% 2^16`), see `rightEdgeX`.
* The opaque application state `&S` is pre-applied: a group element is a
  record of the values its trait methods return for the current state
  (`child_count(state)` becomes the field `childCount`, and so on).
  Quantifying over the record fields subsumes quantifying over states and
  trait implementations.
* Input events are pre-applied likewise: an element's `handle(event, state)`
  becomes a `HandleResult` value (simple) or a function of the child index
  (group).
-/

namespace Chshtui

/-- A terminal rectangle, after ratatui's `Rect` (fields `x`, `y`, `width`,
`height`, all `u16`, embedded as `Nat`). -/
structure Rect where
  x : Nat
  y : Nat
  width : Nat
  height : Nat
deriving DecidableEq, Repr

/-- Ratatui `Rect::contains(Position)`: the half-open box
`[x, x+width) × [y, y+height)`. -/
def Rect.containsPos (r : Rect) (px py : Nat) : Prop :=
  r.x ≤ px ∧ px < r.x + r.width ∧ r.y ≤ py ∧ py < r.y + r.height

instance (r : Rect) (px py : Nat) : Decidable (r.containsPos px py) := by
  unfold Rect.containsPos
  infer_instance

/-- Ratatui's `Constraint` (one-axis sizing policy).  Magnitudes are `u16`
except `ratio`, whose numerator and denominator are `u32`. -/
inductive Constraint where
  | min (v : Nat)
  | max (v : Nat)
  | length (v : Nat)
  | percentage (v : Nat)
  | ratio (num den : Nat)
  | fill (v : Nat)
deriving DecidableEq, Repr

/-- Modelled from the spec: ratatui's single-axis flex solver
(`Layout::split`) is an external dependency, absent from `src/`.  Spec §4.2:
"fixed/length items get exact size, min/max get bounded size, fill items
share remaining space proportionally to weight".  This gives the size a
non-fill constraint asks for out of `total`. -/
def constraintDesired (total : Nat) : Constraint → Nat
  | .min v => v
  | .max v => v
  | .length v => v
  | .percentage p => total * p / 100
  | .ratio n d => total * n / max d 1
  | .fill _ => 0

/-- Weight of a fill constraint, 0 for every other kind. -/
def fillWeight : Constraint → Nat
  | .fill w => w
  | _ => 0

/-- Modelled from the spec: first pass of the solver.  Non-fill items are
granted their desired size in order, each bounded by the space still
unallocated; fill items are skipped (granted 0 for now).  Returns the sizes
and the leftover space. -/
def allocNonFill (total : Nat) : Nat → List Constraint → List Nat × Nat
  | remaining, [] => ([], remaining)
  | remaining, .fill _ :: cs =>
    let rest := allocNonFill total remaining cs
    (0 :: rest.1, rest.2)
  | remaining, c :: cs =>
    let s := min (constraintDesired total c) remaining
    let rest := allocNonFill total (remaining - s) cs
    (s :: rest.1, rest.2)

/-- Modelled from the spec: the full solver.  Fill items share the space
left over by the first pass proportionally to weight (when every fill weight
is 0 the share is 0). -/
def splitSizes (total : Nat) (cs : List Constraint) : List Nat :=
  let pass := allocNonFill total total cs
  let w := (cs.map fillWeight).sum
  List.zipWith
    (fun c s =>
      match c with
      | .fill wi => if w = 0 then 0 else pass.2 * wi / w
      | _ => s)
    cs pass.1

/-- Stack sizes into rectangles top-to-bottom starting at `y`. -/
def stackVert (x width : Nat) : Nat → List Nat → List Rect
  | _, [] => []
  | y, h :: hs => ⟨x, y, width, h⟩ :: stackVert x width (y + h) hs

/-- Vertical `Layout::split`: one rectangle per constraint, stacked
top-to-bottom inside `area`. -/
def vsplitRects (area : Rect) (cs : List Constraint) : List Rect :=
  stackVert area.x area.width area.y (splitSizes area.height cs)

/-- Stack sizes into rectangles left-to-right starting at `x`. -/
def stackHoriz (y height : Nat) : Nat → List Nat → List Rect
  | _, [] => []
  | x, w :: ws => ⟨x, y, w, height⟩ :: stackHoriz y height (x + w) ws

/-- Horizontal `Layout::split`: one rectangle per constraint, stacked
left-to-right inside `area`. -/
def hsplitRects (area : Rect) (cs : List Constraint) : List Rect :=
  stackHoriz area.y area.height area.x (splitSizes area.width cs)

/-- `Dims`: width and height constraints of an element (`view.rs`). -/
structure Dims where
  x : Constraint
  y : Constraint
deriving DecidableEq, Repr

/-- Ratatui `Direction`. -/
inductive Direction where
  | vertical
  | horizontal
deriving DecidableEq, Repr

/-- `HandleResult` of `view.rs`, with the scene payload of `Open` dropped
(scenes play no part in the layout algorithms). -/
inductive HandleResult where
  | close
  | openScene
  | consume
  | dflt
deriving DecidableEq, Repr

/-- Data of a simple element (trait `ElSimp`, state and event pre-applied). -/
structure SimpleData where
  dims : Dims
  handler : HandleResult

/-- Data of a group element (trait `ElGroup`, state and event pre-applied). -/
structure GroupData where
  dims : Dims
  dir : Direction
  childCount : Nat
  childPos : Rect → Nat → Nat × Nat
  childAtPos : Rect → Nat → Nat → Nat
  handler : Nat → HandleResult

/-- `El`: a column entry, simple or group (`view.rs`). -/
inductive El where
  | simple (s : SimpleData)
  | group (g : GroupData)

/-- `El::dimensions`. -/
def El.dimensions : El → Dims
  | .simple s => s.dims
  | .group g => g.dims

/-- `El::row_count`: 1 for simple elements, `child_count` for vertical
groups, 1 for horizontal groups. -/
def El.rowCount : El → Nat
  | .simple _ => 1
  | .group g => if g.dir = .vertical then g.childCount else 1

/-- `ColPos`: selection within one column. -/
structure ColPos where
  row : Nat
  rowCol : Nat
deriving DecidableEq, Repr

instance : Inhabited ColPos := ⟨⟨0, 0⟩⟩

/-- `ElPos`: the global selection coordinate. -/
structure ElPos where
  col : Nat
  pos : ColPos
deriving DecidableEq, Repr

instance : Inhabited ElPos := ⟨⟨0, ⟨0, 0⟩⟩⟩

/-- A `Column` of `view.rs`: a vertical stack of elements. -/
structure Column where
  elements : List El

/-- Height constraints of a column's elements (`Column::layout`). -/
def Column.heights (c : Column) : List Constraint :=
  c.elements.map fun e => e.dimensions.y

/-- `Column::iter_layout`: elements zipped with their split rectangles. -/
def Column.iterLayout (c : Column) (area : Rect) : List (El × Rect) :=
  c.elements.zip (vsplitRects area c.heights)

/-- `Column::row_count`: total number of selectable rows. -/
def Column.rowCount (c : Column) : Nat :=
  (c.elements.map El.rowCount).sum

/-- Loop of `Column::get_element`.  `row` is reduced by each element's row
count until it addresses the current element (`wrapping_sub` in the source
is only reached when `row ≥ row_count`, hence plain `Nat` subtraction). -/
def getElementAux (rowCol : Nat) : Nat → List El → Option (El × Nat)
  | _, [] => none
  | row, e :: es =>
    if row < e.rowCount then
      some (e, match e with
        | .simple _ => 0
        | .group g => if g.dir = .vertical then row else rowCol)
    else getElementAux rowCol (row - e.rowCount) es

/-- `Column::get_element`: resolve a position to (element, child index). -/
def Column.getElement (c : Column) (pos : ColPos) : Option (El × Nat) :=
  getElementAux pos.rowCol pos.row c.elements

/-- `Column::clamp_selected`. -/
def Column.clampSelected (c : Column) (selected : ColPos) : ColPos :=
  let pos : ColPos := ⟨min selected.row (c.rowCount - 1), selected.rowCol⟩
  match c.getElement pos with
  | some (.group g, _) =>
    if g.dir = .horizontal then ⟨pos.row, min pos.rowCol (g.childCount - 1)⟩
    else ⟨pos.row, 0⟩
  | some (.simple _, _) => ⟨pos.row, 0⟩
  | none => pos

/-- `centre_of`: centre point of a rectangle, rounded down. -/
def centreOf (r : Rect) : Nat × Nat :=
  (r.x + r.width / 2, r.y + r.height / 2)

/-- Loop of `Column::child_pos` (`saturating_sub` is only reached when
`row ≥ row_count`, hence plain `Nat` subtraction). -/
def childPosAux (rowCol : Nat) : Nat → List (El × Rect) → Nat × Nat
  | _, [] => (0, 0)
  | row, (e, a) :: rest =>
    if row < e.rowCount then
      match e with
      | .simple _ => centreOf a
      | .group g =>
        if g.dir = .vertical then g.childPos a row else g.childPos a rowCol
    else childPosAux rowCol (row - e.rowCount) rest

/-- `Column::child_pos`: centre point of the addressed child. -/
def Column.childPos (c : Column) (area : Rect) (pos : ColPos) : Nat × Nat :=
  childPosAux pos.rowCol pos.row (c.iterLayout area)

/-- Loop of `Column::child_at_coordinate`.  The probe point for the
containment test is `(el_area.x, y)` as in the source. -/
def childAtCoordAux (x y : Nat) : Nat → List (El × Rect) → ColPos
  | row, [] => ⟨row, 0⟩
  | row, (e, a) :: rest =>
    if a.containsPos a.x y then
      match e with
      | .simple _ => ⟨row, 0⟩
      | .group g =>
        if g.dir = .vertical then ⟨row + g.childAtPos a x y, 0⟩
        else ⟨row, g.childAtPos a x y⟩
    else childAtCoordAux x y (row + e.rowCount) rest

/-- `Column::child_at_coordinate`: selection index of a point. -/
def Column.childAtCoordinate (c : Column) (area : Rect) (x y : Nat) : ColPos :=
  childAtCoordAux x y 0 (c.iterLayout area)

/-- `Column::width`: the children's width constraints. -/
def Column.widths (c : Column) : List Constraint :=
  c.elements.map fun e => e.dimensions.x

/-- `Column::handle`: dispatch to the addressed element's handler,
`Default` when the position resolves to nothing. -/
def Column.handle (c : Column) (selected : ColPos) : HandleResult :=
  match c.getElement selected with
  | some (.simple s, _) => s.handler
  | some (.group g, i) => g.handler i
  | none => .dflt

/-!
IEEE binary32 model for the `Ratio` arm of `compare_constraints`, which
computes `(*a1 as f32 / *a2 as f32).total_cmp(&(*b1 as f32 / *b2 as f32))`.
All values arising here are nonnegative: either NaN (`0.0 / 0.0`), `+inf`
(`x / 0.0` with `x > 0`), or a finite nonnegative dyadic rational, which we
carry as its exact value in `ℚ`.  A `u32` converts to f32 by rounding to 24
significant bits (round-to-nearest, ties-to-even), and `/` rounds the exact
quotient the same way.  Exponent overflow and subnormals cannot occur in
this range: a nonzero converted `u32` lies in `[1, 2^32]`, so a nonzero
finite quotient lies in `[2^-32, 2^32]`, well inside the normal range, so
the unbounded-exponent rounding below is exact IEEE behaviour. -/

/-- Integer power of two as a rational (explicit form so that concrete
instances evaluate by `decide`). -/
def qPow2 (z : ℤ) : ℚ :=
  if 0 ≤ z then ((2 ^ z.toNat : Nat) : ℚ) else 1 / ((2 ^ (-z).toNat : Nat) : ℚ)

/-- Fuel-bounded base-2 logarithm on `Nat` (structural recursion so that
concrete instances evaluate by `decide`). -/
def natLog2F : Nat → Nat → Nat
  | 0, _ => 0
  | f + 1, n => if n ≤ 1 then 0 else natLog2F f (n / 2) + 1

/-- Floor base-2 logarithm, exact for `n < 2^128` — far above every value
reachable here (u32 legs and quotients of 24-bit significands). -/
def natLog2 (n : Nat) : Nat :=
  natLog2F 128 n

/-- Base-2 logarithm of a positive rational: the unique `e` with
`2^e ≤ q < 2^(e+1)`.  The candidate from the numerator and denominator
bit-lengths is off by at most one, which the final test corrects. -/
def qLog2 (q : ℚ) : ℤ :=
  let c : ℤ := (natLog2 q.num.toNat : ℤ) - (natLog2 q.den : ℤ)
  if q < qPow2 c then c - 1 else c

/-- Round a rational to an integer, round-to-nearest with ties-to-even. -/
def roundHalfEven (q : ℚ) : ℤ :=
  let n := Rat.floor q
  let frac := q - (n : ℚ)
  if frac < 1 / 2 then n
  else if 1 / 2 < frac then n + 1
  else if n % 2 = 0 then n else n + 1

/-- Round a nonnegative rational to the nearest (ties-to-even) value with a
24-bit significand, i.e. to the f32 value it denotes (normal range). -/
def roundF32 (q : ℚ) : ℚ :=
  if q ≤ 0 then 0
  else
    let e : ℤ := qLog2 q
    (roundHalfEven (q * qPow2 (23 - e)) : ℚ) * qPow2 (e - 23)

/-- The f32 values reachable in ratio comparison: NaN, `+inf`, or a finite
nonnegative value (carried exactly). -/
inductive F32 where
  | nan
  | inf
  | fin (q : ℚ)
deriving DecidableEq

/-- Rust `u32 as f32` conversion (round-to-nearest, ties-to-even). -/
def natToF32 (n : Nat) : ℚ :=
  roundF32 (n : ℚ)

/-- `a as f32 / b as f32` for the two `u32` legs of a `Ratio`. -/
def ratioF32 (a b : Nat) : F32 :=
  let fa := natToF32 a
  let fb := natToF32 b
  if fb = 0 then
    if fa = 0 then .nan else .inf
  else .fin (roundF32 (fa / fb))

/-- Three-way comparison on `ℚ` (used to interpret IEEE `<`/`=` on the
finite values, which on distinct representable values agrees with the exact
order). -/
def cmpQ (a b : ℚ) : Ordering :=
  if a < b then .lt else if b < a then .gt else .eq

/-- Rust `f32::total_cmp`, restricted to the nonnegative values of `F32`:
finite values in their numeric order, then `+inf`, then NaN. -/
def F32.totalCmp : F32 → F32 → Ordering
  | .fin a, .fin b => cmpQ a b
  | .fin _, .inf => .lt
  | .fin _, .nan => .lt
  | .inf, .fin _ => .gt
  | .inf, .inf => .eq
  | .inf, .nan => .lt
  | .nan, .nan => .eq
  | .nan, .fin _ => .gt
  | .nan, .inf => .gt

/-- Three-way comparison on `Nat` (Rust `Ord::cmp` on `u16`). -/
def cmpNat (a b : Nat) : Ordering :=
  if a < b then .lt else if b < a then .gt else .eq

/-- `compare_constraints` of `view.rs`: more constraining constraints
compare greater.  The arms appear in source order; Lean's `match`, like
Rust's, takes the first matching arm. -/
def compareConstraints (a b : Constraint) : Ordering :=
  match a, b with
  | .min a, .min b => cmpNat a b
  | .max a, .max b => cmpNat a b
  | .length a, .length b => cmpNat a b
  | .percentage a, .percentage b => cmpNat a b
  | .ratio a1 a2, .ratio b1 b2 => (ratioF32 a1 a2).totalCmp (ratioF32 b1 b2)
  | .fill a, .fill b => cmpNat a b
  | .max _, _ => .gt
  | _, .max _ => .lt
  | .length _, _ => .gt
  | _, .length _ => .lt
  | .min _, _ => .gt
  | _, .min _ => .lt
  | .percentage _, _ => .gt
  | _, .percentage _ => .lt
  | .ratio _ _, _ => .gt
  | _, .ratio _ _ => .lt

/-- Rust `Iterator::max_by`: fold keeping the accumulator only when it
compares strictly greater, so of several equal maxima the last wins.
`none` on an empty list. -/
def listMaxBy (cmp : Constraint → Constraint → Ordering) :
    List Constraint → Option Constraint
  | [] => none
  | c :: cs => some (cs.foldl (fun acc x => if cmp acc x = .gt then acc else x) c)

/-- `Column::width`: the most constraining width constraint of any child,
`Fill(0)` for an empty column. -/
def Column.width (c : Column) : Constraint :=
  (listMaxBy compareConstraints c.widths).getD (.fill 0)

/-- `LayoutRenderMode` of `view.rs`. -/
inductive LayoutRenderMode where
  | fullScreen
  | modal (title : String) (dimensions : Dims) (selection : Bool)

/-- The `Layout` of `view.rs`: columns left-to-right plus a render mode. -/
structure Layout where
  columns : List Column
  mode : LayoutRenderMode

/-- `Layout::new`: a single empty column, full-screen mode. -/
def Layout.new : Layout :=
  ⟨[⟨[]⟩], .fullScreen⟩

/-- `Layout::modal`: switch the render mode. -/
def Layout.modal (l : Layout) (title : String) (dimensions : Dims)
    (selection : Bool) : Layout :=
  { l with mode := .modal title dimensions selection }

/-- Push an element onto the last column, a no-op when there are no columns
(`columns.last_mut()` pattern of `add_el` / `add_group`). -/
def pushLast (cols : List Column) (e : El) : List Column :=
  match cols with
  | [] => []
  | [c] => [⟨c.elements ++ [e]⟩]
  | c :: rest => c :: pushLast rest e

/-- `Layout::add_el`. -/
def Layout.addEl (l : Layout) (s : SimpleData) : Layout :=
  { l with columns := pushLast l.columns (.simple s) }

/-- `Layout::add_group`. -/
def Layout.addGroup (l : Layout) (g : GroupData) : Layout :=
  { l with columns := pushLast l.columns (.group g) }

/-- `Layout::add_column`. -/
def Layout.addColumn (l : Layout) : Layout :=
  { l with columns := l.columns ++ [⟨[]⟩] }

/-- Width constraints of the layout's columns (`Layout::layout`). -/
def Layout.colWidths (l : Layout) : List Constraint :=
  l.columns.map Column.width

/-- `Layout::iter_layout`: columns zipped with their split rectangles. -/
def Layout.iterLayout (l : Layout) (area : Rect) : List (Column × Rect) :=
  l.columns.zip (hsplitRects area l.colWidths)

/-- `Layout::clamp_selected`. -/
def Layout.clampSelected (l : Layout) (selected : ElPos) : ElPos :=
  let col := min selected.col (l.columns.length - 1)
  let pos :=
    match l.columns.get? col with
    | some column => column.clampSelected selected.pos
    | none => (default : ColPos)
  ⟨col, pos⟩

/-- `Layout::up`: decrement the row (saturating) and clamp. -/
def Layout.up (l : Layout) (p : ElPos) : ElPos :=
  l.clampSelected ⟨p.col, ⟨p.pos.row - 1, p.pos.rowCol⟩⟩

/-- `Layout::down`: increment the row and clamp. -/
def Layout.down (l : Layout) (p : ElPos) : ElPos :=
  l.clampSelected ⟨p.col, ⟨p.pos.row + 1, p.pos.rowCol⟩⟩

/-- The expression `new_area.x + new_area.width - 1` of `Layout::left`,
evaluated in `u16` arithmetic with two's-complement wrap: when
`x + width = 0` the subtraction underflows to `65535` (release-profile
behaviour; a debug build panics there, see the C4 analysis). -/
def rightEdgeX (r : Rect) : Nat :=
  (r.x + r.width + 65535) % 65536

/-- Checked variant of the same `u16` expression: `none` exactly when the
subtraction underflows (the debug-profile panic). -/
def rightEdgeXChecked (r : Rect) : Option Nat :=
  if r.x + r.width = 0 then none else some (r.x + r.width - 1)

/-- `Layout::left`: move within a horizontal group when possible, else
remap the current child's centre height onto the right edge of the column
to the left, then clamp. -/
def Layout.left (l : Layout) (p : ElPos) (area : Rect) : ElPos :=
  if 0 < p.pos.rowCol then
    l.clampSelected ⟨p.col, ⟨p.pos.row, p.pos.rowCol - 1⟩⟩
  else
    let layout := l.iterLayout area
    let y :=
      match layout.get? p.col with
      | some ca => (ca.1.childPos ca.2 p.pos).2
      | none => 0
    let col := p.col - 1
    let pos :=
      match layout.get? col with
      | some ca => ca.1.childAtCoordinate ca.2 (rightEdgeX ca.2) y
      | none => (default : ColPos)
    l.clampSelected ⟨col, pos⟩

/-- The early-return guard of `Layout::right`: the addressed element is a
horizontal group and `row_col` is not at its right boundary. -/
def Layout.rightInGroup (l : Layout) (p : ElPos) : Bool :=
  match l.columns.get? p.col with
  | some column =>
    match column.getElement p.pos with
    | some (.group g, _) =>
      decide (g.dir = .horizontal) && decide (p.pos.rowCol + 1 < g.childCount)
    | _ => false
  | none => false

/-- `Layout::right`: move within a horizontal group when possible
(returning without clamping, as the source does), else remap the current
child's centre height onto the left edge of the next column, then clamp. -/
def Layout.right (l : Layout) (p : ElPos) (area : Rect) : ElPos :=
  if l.rightInGroup p then ⟨p.col, ⟨p.pos.row, p.pos.rowCol + 1⟩⟩
  else
    let q :=
      if p.col + 1 < l.columns.length then
        let layout := l.iterLayout area
        let y :=
          match layout.get? p.col with
          | some ca => (ca.1.childPos ca.2 p.pos).2
          | none => 0
        let col := p.col + 1
        let pos :=
          match layout.get? col with
          | some ca => ca.1.childAtCoordinate ca.2 ca.2.x y
          | none => (default : ColPos)
        (⟨col, pos⟩ : ElPos)
      else p
    l.clampSelected q

/-- `Navigation` of `view.rs`. -/
inductive Navigation where
  | up
  | down
  | left
  | right
deriving DecidableEq, Repr

/-- `Layout::navigate`. -/
def Layout.navigate (l : Layout) (area : Rect) (p : ElPos) :
    Navigation → ElPos
  | .up => l.up p
  | .down => l.down p
  | .left => l.left p area
  | .right => l.right p area

/-- `Layout::handle`: dispatch to the addressed column, `Default` when the
column index is out of range. -/
def Layout.handle (l : Layout) (at_ : ElPos) : HandleResult :=
  match l.columns.get? at_.col with
  | some column => column.handle at_.pos
  | none => .dflt

/-- A column-local position is valid when its row addresses an existing
element and its `row_col` addresses an existing child of a horizontal group
(and is 0 otherwise) — the invariants of spec §3. -/
def Column.validPosB (c : Column) (p : ColPos) : Bool :=
  decide (p.row < c.rowCount) &&
  match c.getElement p with
  | some (.group g, _) =>
    if g.dir = .horizontal then decide (p.rowCol < g.childCount)
    else decide (p.rowCol = 0)
  | some (.simple _, _) => decide (p.rowCol = 0)
  | none => false

/-- A global position is valid when its column exists and its column-local
part is valid there. -/
def Layout.validPosB (l : Layout) (p : ElPos) : Bool :=
  match l.columns.get? p.col with
  | some c => c.validPosB p.pos
  | none => false

/-- A simple element with the given width and height constraints (the
`TestEl` of the source's tests). -/
def testEl (w h : Constraint) : El :=
  .simple ⟨⟨w, h⟩, .dflt⟩

/-- The three-column scenario of spec §8 (and `test_navigate`): columns of
element heights {64}, {16, 32, 16} and {48, 16}, each 16 wide. -/
def scenarioLayout : Layout :=
  ⟨[⟨[testEl (.length 16) (.length 64)]⟩,
    ⟨[testEl (.length 16) (.length 16), testEl (.length 16) (.length 32),
      testEl (.length 16) (.length 16)]⟩,
    ⟨[testEl (.length 16) (.length 48), testEl (.length 16) (.length 16)]⟩],
   .fullScreen⟩

/-- The row-scan shared by `get_element`, `child_pos` and the clamp logic,
separated from the child-index bookkeeping: the element whose row span
contains `row`, together with the local row offset inside it. -/
def findRowAux : Nat → List El → Option (El × Nat)
  | _, [] => none
  | row, e :: es =>
    if row < e.rowCount then some (e, row)
    else findRowAux (row - e.rowCount) es

/-- The child index `get_element` reports for an element found at local row
`localRow` when the selection's `row_col` is `rowCol`. -/
def elChildIdx (e : El) (localRow rowCol : Nat) : Nat :=
  match e with
  | .simple _ => 0
  | .group g => if g.dir = .vertical then localRow else rowCol

/-- Row scan over element/rectangle pairs: the addressed element, its
rectangle and the local row offset. -/
def findPairAux : Nat → List (El × Rect) → Option (El × Rect × Nat)
  | _, [] => none
  | row, (e, a) :: rest =>
    if row < e.rowCount then some (e, a, row)
    else findPairAux (row - e.rowCount) rest

/-- The `row_col` component `child_at_coordinate` produces for a resolved
element: the group's child index for a horizontal group, 0 otherwise. -/
def expectedRowCol (e : El) (rowCol : Nat) : Nat :=
  match e with
  | .group g => if g.dir = .horizontal then rowCol else 0
  | .simple _ => 0

/-- Contract of the addressed child for the round-trip property: a simple
element's rectangle has positive height; a group's `child_pos` for the
addressed child lies inside the group's rectangle vertically and is mapped
back to the same child by `child_at_pos` (the §4.1 inverse contract). -/
def elTargetOk (rowCol : Nat) : El → Rect → Nat → Prop
  | .simple _, a, _ => 0 < a.height
  | .group g, a, lr =>
    (if g.dir = .vertical then lr else rowCol) ∈
      {i : Nat | a.y ≤ (g.childPos a i).2 ∧
        (g.childPos a i).2 < a.y + a.height ∧
        g.childAtPos a (g.childPos a i).1 (g.childPos a i).2 = i}

instance (rowCol : Nat) (e : El) (a : Rect) (lr : Nat) :
    Decidable (elTargetOk rowCol e a lr) := by
  cases e <;> (unfold elTargetOk; exact inferInstanceAs (Decidable _))

/-- Rectangles stacked consecutively downward from `y`, all with left edge
`x` and width `w` (the shape `vsplitRects` produces). -/
def consecFrom (x w : Nat) : Nat → List Rect → Prop
  | _, [] => True
  | y, r :: rs => r.x = x ∧ r.width = w ∧ r.y = y ∧
      consecFrom x w (r.y + r.height) rs

/-- Every horizontal group among the elements has at least one child. -/
def El.horizOkB : El → Bool
  | .group g => if g.dir = .horizontal then decide (1 ≤ g.childCount) else true
  | .simple _ => true

/-- Rank of a constraint kind in the order `Max > Length > Min > Percentage
> Ratio > Fill` implemented by the cross-kind arms of
`compare_constraints`. -/
def constraintRank : Constraint → Nat
  | .fill _ => 0
  | .ratio _ _ => 1
  | .percentage _ => 2
  | .min _ => 3
  | .length _ => 4
  | .max _ => 5

/-- The within-kind comparison key of a constraint: its magnitude (as an
exact finite value) for every kind except `Ratio`, whose key is the f32
quotient of its legs. -/
def constraintKey : Constraint → F32
  | .min v => .fin v
  | .max v => .fin v
  | .length v => .fin v
  | .percentage v => .fin v
  | .ratio a b => ratioF32 a b
  | .fill v => .fin v

/-- A horizontal group with `n` children for concrete scenarios; its
children's centres are the group rectangle's centre. -/
def ceHGroup (n : Nat) : GroupData :=
  ⟨⟨.length 16, .length 8⟩, .horizontal, n,
    fun a _ => centreOf a, fun _ _ _ => 0, fun _ => .dflt⟩

/-- One column holding a two-child horizontal group (sole, hence last,
column). -/
def ceLayoutA : Layout :=
  ⟨[⟨[.group (ceHGroup 2)]⟩], .fullScreen⟩

/-- A column whose first element receives a zero-height rectangle. -/
def ceColumnB : Column :=
  ⟨[testEl (.length 10) (.length 0), testEl (.length 10) (.length 10)]⟩

/-- A single-column layout around `ceColumnB`. -/
def ceLayoutB : Layout :=
  ⟨[ceColumnB], .fullScreen⟩

/-- One column holding a childless horizontal group. -/
def ceLayoutD : Layout :=
  ⟨[⟨[.group (ceHGroup 0)]⟩], .fullScreen⟩

/-- A column of a single 10-cell-tall element. -/
def c6Column : Column :=
  ⟨[testEl (.length 10) (.length 10)]⟩

/-- A three-child horizontal group next to a second column. -/
def c7Layout : Layout :=
  ⟨[⟨[.group (ceHGroup 3)]⟩, ⟨[testEl (.length 16) (.length 16)]⟩],
   .fullScreen⟩

/-- Two ratio constraints whose exact quotients differ but whose f32
quotients coincide (`16777217 = 2^24 + 1` is not representable in f32 and
rounds to `2^24`). -/
def c8Column : Column :=
  ⟨[testEl (.ratio 16777217 1) (.length 1),
    testEl (.ratio 16777216 1) (.length 1)]⟩

/-- A length next to a (lower-ranked) min constraint. -/
def c8WitnessColumn : Column :=
  ⟨[testEl (.length 5) (.length 1), testEl (.min 7) (.length 1)]⟩

/-- Modelled from the spec: the Layout-level mouse hit-test is absent from
`src/` (only `Column::child_at_coordinate` exists there).  Spec §4.3: "find
the column whose horizontal rectangle contains `x`, then call that column's
`child_at_coordinate(x, y)` to obtain a `ColPos`, yielding a full `ElPos`".
Scan loop carrying the column index. -/
def hitTestAux (x y : Nat) : Nat → List (Column × Rect) → Option ElPos
  | _, [] => none
  | i, (c, a) :: rest =>
    if a.x ≤ x ∧ x < a.x + a.width then some ⟨i, c.childAtCoordinate a x y⟩
    else hitTestAux x y (i + 1) rest

/-- Modelled from the spec: the Layout-level mouse hit-test (see
`hitTestAux`). -/
def Layout.hitTest (l : Layout) (area : Rect) (x y : Nat) : Option ElPos :=
  hitTestAux x y 0 (l.iterLayout area)

/-- Modelled from the spec: response to a mouse press — the hit-test result
becomes the live selection, and the press is then offered to the element
the *new* selection resolves to. -/
def Layout.handlePress (l : Layout) (area : Rect) (x y : Nat)
    (sel : ElPos) : ElPos × HandleResult :=
  match l.hitTest area x y with
  | some p => (p, l.handle p)
  | none => (sel, l.handle sel)

/-- `consecFrom` lifted to element/rectangle pairs. -/
def consecPairs (x w : Nat) : Nat → List (El × Rect) → Prop
  | _, [] => True
  | y, (_, r) :: rest => r.x = x ∧ r.width = w ∧ r.y = y ∧
      consecPairs x w (r.y + r.height) rest

/-- The round-trip contract (`elTargetOk`) instantiated at the pair the
position resolves to, trivially true when the position is out of range. -/
def targetOkAt (c : Column) (area : Rect) (p : ColPos) : Prop :=
  match findPairAux p.row (c.iterLayout area) with
  | some (e, a, lr) => elTargetOk p.rowCol e a lr
  | none => True

instance (c : Column) (area : Rect) (p : ColPos) :
    Decidable (targetOkAt c area p) := by
  unfold targetOkAt
  rcases findPairAux p.row (c.iterLayout area) with _ | ⟨e, a, lr⟩ <;>
    infer_instance

/-- Layouts reachable through the public construction API: `new` followed
by any sequence of `modal`, `add_el`, `add_group`, `add_column`. -/
inductive Reachable : Layout → Prop where
  | new : Reachable Layout.new
  | modal (t : String) (d : Dims) (b : Bool) {l : Layout} :
      Reachable l → Reachable (l.modal t d b)
  | addEl (s : SimpleData) {l : Layout} :
      Reachable l → Reachable (l.addEl s)
  | addGroup (g : GroupData) {l : Layout} :
      Reachable l → Reachable (l.addGroup g)
  | addColumn {l : Layout} : Reachable l → Reachable l.addColumn

/-- C1: in the three-column layout with heights {64}, {16,32,16}, {48,16}
in a 48-wide, 64-tall area, one Right from (col 0, row 0, row_col 0) lands
on (col 1, row 1, row_col 0) — the vertically centred element of the second
column — and not on (col 1, row 0, row_col 0). -/
theorem c1_right_lands_centre :
    scenarioLayout.navigate ⟨128, 128, 48, 64⟩ ⟨0, ⟨0, 0⟩⟩ .right
        = ⟨1, ⟨1, 0⟩⟩ ∧
      scenarioLayout.navigate ⟨128, 128, 48, 64⟩ ⟨0, ⟨0, 0⟩⟩ .right
        ≠ ⟨1, ⟨0, 0⟩⟩ := by
  decide

/-- The `get_element` loop is the row scan followed by child-index
bookkeeping. -/
lemma getElementAux_eq_find (rowCol row : Nat) (els : List El) :
    getElementAux rowCol row els =
      (findRowAux row els).map fun q => (q.1, elChildIdx q.1 q.2 rowCol) := by
  induction els generalizing row with
  | nil => rfl
  | cons e es ih =>
    rw [getElementAux.eq_def, findRowAux]
    by_cases h : row < e.rowCount
    · simp only [if_pos h, Option.map_some']
      cases e <;> rfl
    · simp only [if_neg h, ih]

/-- `Column::get_element` through the row scan. -/
lemma Column.getElement_eq_find (c : Column) (p : ColPos) :
    c.getElement p = (findRowAux p.row c.elements).map
      fun q => (q.1, elChildIdx q.1 q.2 p.rowCol) :=
  getElementAux_eq_find p.rowCol p.row c.elements

/-- The row scan succeeds whenever the row is within the total row count. -/
lemma findRowAux_isSome (row : Nat) (els : List El)
    (h : row < (els.map El.rowCount).sum) :
    ∃ e lr, findRowAux row els = some (e, lr) := by
  induction els generalizing row with
  | nil => simp at h
  | cons e es ih =>
    rw [findRowAux]
    by_cases hlt : row < e.rowCount
    · exact ⟨e, row, by simp [hlt]⟩
    · rw [if_neg hlt]
      refine ih (row - e.rowCount) ?_
      simp at h
      omega

/-- The row scan returns an element of the list, at a local row inside its
row span. -/
lemma findRowAux_mem {row : Nat} {els : List El} {e : El} {lr : Nat}
    (h : findRowAux row els = some (e, lr)) : e ∈ els ∧ lr < e.rowCount := by
  induction els generalizing row with
  | nil => simp [findRowAux] at h
  | cons e0 es ih =>
    rw [findRowAux] at h
    by_cases hlt : row < e0.rowCount
    · rw [if_pos hlt] at h
      simp only [Option.some_inj, Prod.mk.injEq] at h
      obtain ⟨he, hlr⟩ := h
      subst he
      subst hlr
      exact ⟨List.mem_cons_self _ _, hlt⟩
    · rw [if_neg hlt] at h
      obtain ⟨hm, hl⟩ := ih h
      exact ⟨List.mem_cons_of_mem _ hm, hl⟩

/-- Clamping a column-local position that is already valid is the
identity. -/
lemma Column.clampSelected_of_valid_col (c : Column) (p : ColPos)
    (h : c.validPosB p = true) : c.clampSelected p = p := by
  obtain ⟨row, rowCol⟩ := p
  rw [Column.validPosB, Bool.and_eq_true, decide_eq_true_eq] at h
  obtain ⟨h1, h2⟩ := h
  replace h1 : row < c.rowCount := h1
  have hr : min row (c.rowCount - 1) = row := by omega
  rw [Column.clampSelected]
  simp only [hr]
  rcases hg : c.getElement ⟨row, rowCol⟩ with _ | ⟨e, i⟩
  · rw [hg] at h2
  · rw [hg] at h2
    cases e with
    | simple s => simp_all
    | group g =>
      by_cases hd : g.dir = Direction.horizontal
      · simp only [hd, if_pos, decide_eq_true_eq] at h2
        simp only [hd, if_pos]
        have : min rowCol (g.childCount - 1) = rowCol := by omega
        rw [this]
      · simp only [if_neg hd, decide_eq_true_eq] at h2
        simp [if_neg hd, h2]

/-- The column component of a layout-level clamp. -/
lemma Layout.clampSelected_col (l : Layout) (q : ElPos) :
    (l.clampSelected q).col = min q.col (l.columns.length - 1) := rfl

/-- An index with a successful lookup is in range. -/
lemma get?_lt_length {α : Type} {xs : List α} {i : Nat} {a : α}
    (h : xs.get? i = some a) : i < xs.length := by
  by_contra hge
  rw [List.get?_eq_none.mpr (by omega)] at h
  exact Option.noConfusion h

/-- Clamping a layout-level position that is already valid is the
identity. -/
lemma Layout.clampSelected_of_valid_pos (l : Layout) (p : ElPos)
    (h : l.validPosB p = true) : l.clampSelected p = p := by
  obtain ⟨col, pos⟩ := p
  rw [Layout.validPosB] at h
  rcases hg : l.columns.get? col with _ | c
  · rw [hg] at h
    simp at h
  · rw [hg] at h
    have hlt : col < l.columns.length := get?_lt_length hg
    have hmin : min col (l.columns.length - 1) = col := by omega
    rw [Layout.clampSelected]
    simp only [hmin, hg]
    rw [Column.clampSelected_of_valid_col c pos h]

/-- Unpack a valid layout-level position. -/
lemma Layout.validPosB_elim {l : Layout} {p : ElPos}
    (h : l.validPosB p = true) :
    ∃ c, l.columns.get? p.col = some c ∧ c.validPosB p.pos = true := by
  rw [Layout.validPosB] at h
  rcases hg : l.columns.get? p.col with _ | c
  · rw [hg] at h
    exact absurd h (by simp)
  · rw [hg] at h
    exact ⟨c, rfl, h⟩

/-- A valid column-local position's row is in range. -/
lemma Column.validPosB_row {c : Column} {q : ColPos}
    (h : c.validPosB q = true) : q.row < c.rowCount := by
  rw [Column.validPosB, Bool.and_eq_true, decide_eq_true_eq] at h
  exact h.1

/-- The column clamp only sees the row through its clamped value. -/
lemma Column.clampSelected_min (c : Column) (q : ColPos) :
    c.clampSelected ⟨min q.row (c.rowCount - 1), q.rowCol⟩ =
      c.clampSelected q := by
  rw [Column.clampSelected, Column.clampSelected]
  simp only
  have h : min (min q.row (c.rowCount - 1)) (c.rowCount - 1) =
      min q.row (c.rowCount - 1) := by omega
  rw [h]

/-- C2 (amended): for a valid position, Up at row 0 and Down at the last
row return the position unchanged; Right at the last column returns it
unchanged provided the addressed element is not a horizontal group with
room to move right; Left at column 0 stays in column 0 (its row may be
remapped geometrically within the column). -/
theorem c2_boundary_no_wrap (l : Layout) (area : Rect) (p : ElPos)
    (hv : l.validPosB p = true) :
    (p.pos.row = 0 → l.navigate area p .up = p) ∧
    (∀ c, l.columns.get? p.col = some c → p.pos.row = c.rowCount - 1 →
      l.navigate area p .down = p) ∧
    (p.col = l.columns.length - 1 → l.rightInGroup p = false →
      l.navigate area p .right = p) ∧
    (p.col = 0 → (l.navigate area p .left).col = 0) := by
  obtain ⟨col, row, rowCol⟩ := p
  obtain ⟨c0, hc0, hcv0⟩ := Layout.validPosB_elim hv
  have hcol : col < l.columns.length := get?_lt_length hc0
  refine ⟨?_, ?_, ?_, ?_⟩
  · intro h0
    simp only at h0
    subst h0
    simp only [Layout.navigate, Layout.up, Nat.zero_sub]
    exact Layout.clampSelected_of_valid_pos l _ hv
  · intro c hc hrow
    simp only at hc hrow
    rw [hc0] at hc
    obtain rfl : c0 = c := Option.some_inj.mp hc
    have hrlt : row < c0.rowCount := Column.validPosB_row hcv0
    simp only [Layout.navigate, Layout.down]
    have hmin : min col (l.columns.length - 1) = col := by omega
    rw [Layout.clampSelected]
    simp only [hmin, hc0]
    have h1 : min (row + 1) (c0.rowCount - 1) = min row (c0.rowCount - 1) := by
      omega
    have h2 : c0.clampSelected ⟨row + 1, rowCol⟩ =
        c0.clampSelected ⟨row, rowCol⟩ := by
      rw [← Column.clampSelected_min c0 ⟨row + 1, rowCol⟩]
      rw [← Column.clampSelected_min c0 ⟨row, rowCol⟩]
      simp only [h1]
    rw [h2, Column.clampSelected_of_valid_col c0 _ hcv0]
  · intro hlast hrg
    simp only at hlast hrg
    simp only [Layout.navigate, Layout.right, hrg, Bool.false_eq_true,
      if_false]
    have hnot : ¬ col + 1 < l.columns.length := by omega
    simp only [hnot, if_false]
    exact Layout.clampSelected_of_valid_pos l _ hv
  · intro h0
    simp only at h0
    subst h0
    simp only [Layout.navigate, Layout.left]
    by_cases hrc : 0 < rowCol
    · simp only [hrc, if_true, Layout.clampSelected_col]
      omega
    · simp only [hrc, if_false, Layout.clampSelected_col]
      omega

/-- C2 is falsified as stated: in `ceLayoutA` the sole (hence last) column
holds a two-child horizontal group, and Right from the valid position
(0,0,0) moves to row_col 1 instead of being a no-op; in `ceLayoutB` the
first element's rectangle has height 0, and Left at column 0 from the valid
position (0,0,0) remaps the row to 1 instead of being a no-op. -/
theorem c2_counterexample :
    ceLayoutA.validPosB ⟨0, ⟨0, 0⟩⟩ = true ∧
    ceLayoutA.columns.length - 1 = 0 ∧
    ceLayoutA.navigate ⟨0, 0, 16, 8⟩ ⟨0, ⟨0, 0⟩⟩ .right ≠ ⟨0, ⟨0, 0⟩⟩ ∧
    ceLayoutB.validPosB ⟨0, ⟨0, 0⟩⟩ = true ∧
    ceLayoutB.navigate ⟨0, 0, 10, 10⟩ ⟨0, ⟨0, 0⟩⟩ .left ≠ ⟨0, ⟨0, 0⟩⟩ := by
  decide

/-- Witness for `c2_boundary_no_wrap` on the concrete three-column
scenario. -/
theorem c2_boundary_no_wrap_witness :
    scenarioLayout.navigate ⟨128, 128, 48, 64⟩ ⟨0, ⟨0, 0⟩⟩ .up = ⟨0, ⟨0, 0⟩⟩ ∧
    scenarioLayout.navigate ⟨128, 128, 48, 64⟩ ⟨0, ⟨0, 0⟩⟩ .down =
      ⟨0, ⟨0, 0⟩⟩ ∧
    scenarioLayout.navigate ⟨128, 128, 48, 64⟩ ⟨2, ⟨0, 0⟩⟩ .right =
      ⟨2, ⟨0, 0⟩⟩ ∧
    (scenarioLayout.navigate ⟨128, 128, 48, 64⟩ ⟨0, ⟨0, 0⟩⟩ .left).col = 0 :=
  ⟨(c2_boundary_no_wrap scenarioLayout ⟨128, 128, 48, 64⟩ ⟨0, ⟨0, 0⟩⟩
      (by decide)).1 rfl,
   (c2_boundary_no_wrap scenarioLayout ⟨128, 128, 48, 64⟩ ⟨0, ⟨0, 0⟩⟩
      (by decide)).2.1 _ rfl (by decide),
   (c2_boundary_no_wrap scenarioLayout ⟨128, 128, 48, 64⟩ ⟨2, ⟨0, 0⟩⟩
      (by decide)).2.2.1 (by decide) (by decide),
   (c2_boundary_no_wrap scenarioLayout ⟨128, 128, 48, 64⟩ ⟨0, ⟨0, 0⟩⟩
      (by decide)).2.2.2 rfl⟩

/-- Clamping in a column with at least one selectable row, whose horizontal
groups all have at least one child, lands on a valid position. -/
lemma Column.clampSelected_always_valid (c : Column) (h1 : 1 ≤ c.rowCount)
    (h2 : c.elements.all El.horizOkB = true) (q : ColPos) :
    c.validPosB (c.clampSelected q) = true := by
  rw [Column.clampSelected]
  simp only
  have hlt : min q.row (c.rowCount - 1) < c.rowCount := by omega
  obtain ⟨e, lr, hfind⟩ :=
    findRowAux_isSome (min q.row (c.rowCount - 1)) c.elements hlt
  have hge : ∀ rc2, c.getElement ⟨min q.row (c.rowCount - 1), rc2⟩ =
      some (e, elChildIdx e lr rc2) := by
    intro rc2
    rw [Column.getElement_eq_find]
    simp [hfind]
  rw [hge q.rowCol]
  cases e with
  | simple s =>
    rw [Column.validPosB]
    rw [hge 0]
    simp [hlt]
  | group g =>
    by_cases hd : g.dir = Direction.horizontal
    · have hcc : 1 ≤ g.childCount := by
        have hmem := (findRowAux_mem hfind).1
        have := List.all_eq_true.mp h2 _ hmem
        rw [El.horizOkB, if_pos hd, decide_eq_true_eq] at this
        exact this
      simp only [hd, if_pos]
      rw [Column.validPosB]
      rw [hge (min q.rowCol (g.childCount - 1))]
      simp only [hd, if_pos, Bool.and_eq_true, decide_eq_true_eq]
      refine ⟨hlt, by omega⟩
    · simp only [if_neg hd]
      rw [Column.validPosB]
      rw [hge 0]
      simp [hlt, hd]

/-- C3 (amended): clamping any position in a layout whose columns each have
at least one selectable row and whose horizontal groups each have at least
one child yields a position addressing an existing element or child. -/
theorem c3_clamp_valid (l : Layout) (p : ElPos)
    (hne : l.columns ≠ [])
    (hcols : ∀ c ∈ l.columns,
      1 ≤ c.rowCount ∧ c.elements.all El.horizOkB = true) :
    l.validPosB (l.clampSelected p) = true := by
  have hlen : 0 < l.columns.length := List.length_pos.mpr hne
  have hlt : min p.col (l.columns.length - 1) < l.columns.length := by omega
  obtain ⟨c, hc⟩ :
      ∃ c, l.columns.get? (min p.col (l.columns.length - 1)) = some c := by
    rcases hgg : l.columns.get? (min p.col (l.columns.length - 1)) with _ | c
    · rw [List.get?_eq_none] at hgg
      omega
    · exact ⟨c, rfl⟩
  obtain ⟨hc1, hc2⟩ := hcols c (List.get?_mem hc)
  rw [Layout.clampSelected]
  simp only [hc]
  rw [Layout.validPosB]
  simp only [hc]
  exact Column.clampSelected_always_valid c hc1 hc2 p.pos

/-- C3 is falsified as stated: clamping in `Layout::new`'s single empty
column returns the input (even keeping a nonzero `row_col`) yet addresses
no element; clamping onto a childless horizontal group (`ceLayoutD`) yields
`row_col = 0`, which addresses no existing child. -/
theorem c3_counterexample :
    Layout.new.clampSelected ⟨0, ⟨0, 5⟩⟩ = ⟨0, ⟨0, 5⟩⟩ ∧
    Layout.new.validPosB (Layout.new.clampSelected ⟨0, ⟨0, 5⟩⟩) = false ∧
    ceLayoutD.validPosB (ceLayoutD.clampSelected ⟨0, ⟨0, 0⟩⟩) = false := by
  decide

/-- Witness for `c3_clamp_valid` on the three-column scenario with a stale
out-of-range position. -/
theorem c3_clamp_valid_witness :
    scenarioLayout.validPosB (scenarioLayout.clampSelected ⟨5, ⟨7, 9⟩⟩) =
      true :=
  c3_clamp_valid scenarioLayout ⟨5, ⟨7, 9⟩⟩ (List.cons_ne_nil _ _)
    (by decide)

/-- C4: evidence for the totality failure.  With `Layout::new` and a
zero-width area, `Layout::left` from the default position takes the remap
branch (`row_col = 0`), successfully looks up the current column's
zero-width rectangle, and there evaluates `new_area.x + new_area.width - 1`
in `u16`: the checked subtraction underflows (a debug-build panic; a
release build wraps to 65535 and proceeds). -/
theorem c4_left_underflow :
    ¬ 0 < (⟨0, ⟨0, 0⟩⟩ : ElPos).pos.rowCol ∧
    (Layout.new.iterLayout ⟨0, 0, 0, 64⟩).get? 0 =
      some (⟨[]⟩, ⟨0, 0, 0, 64⟩) ∧
    rightEdgeXChecked ⟨0, 0, 0, 64⟩ = none ∧
    rightEdgeX ⟨0, 0, 0, 64⟩ = 65535 :=
  ⟨by decide, rfl, by decide, by decide⟩

/-- C6: evidence for the past-the-end fallback.  For `y` inside an element
the scan resolves the containing row, but for `y` past the last element
`child_at_coordinate` returns row = row_count — one *past* the last row —
unclamped, contradicting the claim and the source's own comment ("Return
the position of the last element"). -/
theorem c6_past_end_unclamped :
    c6Column.childAtCoordinate ⟨0, 0, 10, 10⟩ 5 5 = ⟨0, 0⟩ ∧
    c6Column.childAtCoordinate ⟨0, 0, 10, 10⟩ 5 15 = ⟨1, 0⟩ ∧
    c6Column.rowCount = 1 := by
  decide

/-- Inside a horizontal group with room to the right, `Layout::right`
only increments `row_col` (early return, no clamp). -/
lemma Layout.right_in_group {l : Layout} {p : ElPos} (area : Rect)
    (h : l.rightInGroup p = true) :
    l.right p area = ⟨p.col, ⟨p.pos.row, p.pos.rowCol + 1⟩⟩ := by
  rw [Layout.right, if_pos h]

/-- C7: within an N-child horizontal group, each Right below the boundary
increments `row_col` without changing the column, so k presses from
`row_col = 0` reach `row_col = k` for every k < N; at the boundary
(`row_col = N-1`), when a next column exists, one further Right crosses to
it (coordinate remap) instead of being a no-op. -/
theorem c7_horizontal_group_right (l : Layout) (area : Rect)
    (col row : Nat) (c : Column) (g : GroupData) (lr : Nat)
    (hc : l.columns.get? col = some c)
    (hfind : findRowAux row c.elements = some (.group g, lr))
    (hd : g.dir = Direction.horizontal) :
    (∀ k, k < g.childCount →
      (fun q => l.right q area)^[k] ⟨col, ⟨row, 0⟩⟩ = ⟨col, ⟨row, k⟩⟩) ∧
    (col + 1 < l.columns.length →
      ((fun q => l.right q area) ⟨col, ⟨row, g.childCount - 1⟩⟩).col =
        col + 1) := by
  have hge : ∀ k, c.getElement ⟨row, k⟩ = some (.group g, k) := by
    intro k
    rw [Column.getElement_eq_find]
    simp only [hfind, Option.map_some']
    rw [elChildIdx, hd]
    simp
  have hrgt : ∀ k, k + 1 < g.childCount →
      l.rightInGroup ⟨col, ⟨row, k⟩⟩ = true := by
    intro k hk
    rw [Layout.rightInGroup]
    simp only [hc, hge k]
    simp [hd, hk]
  constructor
  · intro k hk
    induction k with
    | zero => rfl
    | succ n ihn =>
      rw [Function.iterate_succ_apply', ihn (by omega)]
      exact Layout.right_in_group area (hrgt n hk)
  · intro hcl
    have hrg : l.rightInGroup ⟨col, ⟨row, g.childCount - 1⟩⟩ = false := by
      rw [Layout.rightInGroup]
      simp only [hc, hge (g.childCount - 1)]
      simp [hd]
      omega
    simp only
    rw [Layout.right, hrg]
    simp only [Bool.false_eq_true, if_false, hcl, if_true,
      Layout.clampSelected_col]
    omega

/-- Witness for `c7_horizontal_group_right` on a three-child horizontal
group next to a second column. -/
theorem c7_witness :
    ((fun q => c7Layout.right q ⟨0, 0, 32, 16⟩)^[2] ⟨0, ⟨0, 0⟩⟩ =
      ⟨0, ⟨0, 2⟩⟩) ∧
    ((fun q => c7Layout.right q ⟨0, 0, 32, 16⟩) ⟨0, ⟨0, 2⟩⟩).col = 1 :=
  ⟨(c7_horizontal_group_right c7Layout ⟨0, 0, 32, 16⟩ 0 0 _ (ceHGroup 3) 0
      rfl rfl rfl).1 2 (by decide),
   (c7_horizontal_group_right c7Layout ⟨0, 0, 32, 16⟩ 0 0 _ (ceHGroup 3) 0
      rfl rfl rfl).2 (by decide)⟩

/-- `stackVert` produces consecutive rectangles. -/
lemma stackVert_consec (x w : Nat) (hs : List Nat) : ∀ (y : Nat),
    consecFrom x w y (stackVert x w y hs) := by
  induction hs with
  | nil => intro y; exact trivial
  | cons h hs ih =>
    intro y
    rw [stackVert, consecFrom]
    exact ⟨rfl, rfl, rfl, ih (y + h)⟩

/-- Zipping with consecutive rectangles yields consecutive pairs (a
truncating zip needs no length hypothesis). -/
lemma consecPairs_of_consecFrom (x w : Nat) (els : List El) :
    ∀ (rs : List Rect) (y : Nat), consecFrom x w y rs →
      consecPairs x w y (els.zip rs) := by
  induction els with
  | nil => intro rs y _; simp [consecPairs]
  | cons e es ih =>
    intro rs y hc
    cases rs with
    | nil => simp [consecPairs]
    | cons r rs =>
      rw [consecFrom] at hc
      obtain ⟨h1, h2, h3, h4⟩ := hc
      exact ⟨h1, h2, h3, ih rs (r.y + r.height) h4⟩

/-- First pass of the split solver: one size per constraint. -/
lemma allocNonFill_fst_length (total : Nat) : ∀ (r : Nat)
    (cs : List Constraint), (allocNonFill total r cs).1.length = cs.length := by
  intro r cs
  induction cs generalizing r with
  | nil => rfl
  | cons c cs ih => cases c <;> simp [allocNonFill, ih]

/-- The split solver: one size per constraint. -/
lemma splitSizes_length (total : Nat) (cs : List Constraint) :
    (splitSizes total cs).length = cs.length := by
  rw [splitSizes]
  simp [allocNonFill_fst_length]

/-- Stacking: one rectangle per size. -/
lemma stackVert_length (x w : Nat) : ∀ (y : Nat) (hs : List Nat),
    (stackVert x w y hs).length = hs.length := by
  intro y hs
  induction hs generalizing y with
  | nil => rfl
  | cons h hs ih => simp [stackVert, ih]

/-- Vertical split: one rectangle per constraint. -/
lemma vsplitRects_length (area : Rect) (cs : List Constraint) :
    (vsplitRects area cs).length = cs.length := by
  rw [vsplitRects, stackVert_length, splitSizes_length]

/-- The row scan over pairs agrees with the row scan over elements when
the rectangle list is long enough. -/
lemma findPairAux_of_findRow : ∀ {els : List El} {rects : List Rect}
    {row : Nat} {e : El} {lr : Nat}, els.length = rects.length →
    findRowAux row els = some (e, lr) →
    ∃ a, findPairAux row (els.zip rects) = some (e, a, lr) := by
  intro els
  induction els with
  | nil => intro rects row e lr _ hf; rw [findRowAux] at hf; simp at hf
  | cons e0 es ih =>
    intro rects row e lr hlen hf
    cases rects with
    | nil => simp at hlen
    | cons r rs =>
      rw [findRowAux] at hf
      rw [List.zip_cons_cons, findPairAux]
      by_cases hlt : row < e0.rowCount
      · rw [if_pos hlt] at hf ⊢
        simp only [Option.some_inj, Prod.mk.injEq] at hf
        obtain ⟨h1, h2⟩ := hf
        subst h1
        subst h2
        exact ⟨r, rfl⟩
      · rw [if_neg hlt] at hf ⊢
        exact ih (by simpa using hlen) hf

/-- Unfolding of the `child_pos` loop at a cons cell. -/
lemma childPosAux_cons (rowCol row : Nat) (e : El) (a : Rect)
    (rest : List (El × Rect)) :
    childPosAux rowCol row ((e, a) :: rest) =
      if row < e.rowCount then
        match e with
        | .simple _ => centreOf a
        | .group g =>
          if g.dir = .vertical then g.childPos a row else g.childPos a rowCol
      else childPosAux rowCol (row - e.rowCount) rest := rfl

/-- Unfolding of the `child_at_coordinate` loop at a cons cell. -/
lemma childAtCoordAux_cons (x y row : Nat) (e : El) (a : Rect)
    (rest : List (El × Rect)) :
    childAtCoordAux x y row ((e, a) :: rest) =
      if a.containsPos a.x y then
        match e with
        | .simple _ => (⟨row, 0⟩ : ColPos)
        | .group g =>
          if g.dir = .vertical then ⟨row + g.childAtPos a x y, 0⟩
          else ⟨row, g.childAtPos a x y⟩
      else childAtCoordAux x y (row + e.rowCount) rest := rfl

/-- The round-trip induction: starting from consecutive pairs, the centre
point `child_pos` computes for the addressed child is mapped back to the
same selection by the `child_at_coordinate` scan, provided the addressed
child satisfies `elTargetOk`. -/
lemma roundTripAux (x0 w : Nat) (hw : 0 < w) :
    ∀ (pairs : List (El × Rect)) (y0 : Nat),
      consecPairs x0 w y0 pairs →
      ∀ (row rowCol acc : Nat) (e : El) (a : Rect) (lr : Nat),
        findPairAux row pairs = some (e, a, lr) →
        elTargetOk rowCol e a lr →
        ∀ (px py : Nat), childPosAux rowCol row pairs = (px, py) →
          y0 ≤ py ∧ py < a.y + a.height ∧
            childAtCoordAux px py acc pairs =
              ⟨acc + row, expectedRowCol e rowCol⟩ := by
  intro pairs
  induction pairs with
  | nil =>
    intro y0 _ row rowCol acc e a lr hfind
    rw [findPairAux] at hfind
    simp at hfind
  | cons hd rest ih =>
    obtain ⟨e0, a0⟩ := hd
    intro y0 hcons row rowCol acc e a lr hfind hok px py hq
    obtain ⟨hx, hwid, hy, hrest⟩ := hcons
    rw [findPairAux] at hfind
    rw [childPosAux_cons] at hq
    by_cases hlt : row < e0.rowCount
    · rw [if_pos hlt] at hfind hq
      simp only [Option.some_inj, Prod.mk.injEq] at hfind
      obtain ⟨he, ha, hlr⟩ := hfind
      subst he
      subst ha
      subst hlr
      cases e0 with
      | simple s =>
        simp only [elTargetOk] at hok
        simp only [centreOf, Prod.mk.injEq] at hq
        obtain ⟨hpx, hpy⟩ := hq
        have hcontain : a0.containsPos a0.x py := by
          rw [Rect.containsPos]
          refine ⟨Nat.le_refl _, by omega, by omega, by omega⟩
        have hrow0 : row = 0 := by
          have := hlt
          rw [El.rowCount] at this
          omega
        refine ⟨by omega, by omega, ?_⟩
        rw [childAtCoordAux_cons, if_pos hcontain]
        simp [hrow0, expectedRowCol]
      | group g =>
        simp only [elTargetOk, Set.mem_setOf_eq] at hok
        by_cases hd : g.dir = Direction.vertical
        · simp only [if_pos hd] at hok hq
          obtain ⟨hb1, hb2, hinv⟩ := hok
          rw [hq] at hb1 hb2 hinv
          have hcontain : a0.containsPos a0.x py := by
            rw [Rect.containsPos]
            refine ⟨Nat.le_refl _, by omega, hb1, hb2⟩
          refine ⟨by omega, hb2, ?_⟩
          rw [childAtCoordAux_cons, if_pos hcontain]
          have hdir2 : ¬ g.dir = Direction.horizontal := by
            rw [hd]
            intro hcontra
            exact Direction.noConfusion hcontra
          simp [hd, hinv, expectedRowCol, hdir2]
        · simp only [if_neg hd] at hok hq
          obtain ⟨hb1, hb2, hinv⟩ := hok
          rw [hq] at hb1 hb2 hinv
          have hcontain : a0.containsPos a0.x py := by
            rw [Rect.containsPos]
            refine ⟨Nat.le_refl _, by omega, hb1, hb2⟩
          have hdir2 : g.dir = Direction.horizontal := by
            cases hdd : g.dir
            · exact absurd hdd hd
            · rfl
          have hrow0 : row = 0 := by
            have := hlt
            rw [El.rowCount, if_neg hd] at this
            omega
          refine ⟨by omega, hb2, ?_⟩
          rw [childAtCoordAux_cons, if_pos hcontain]
          simp [hd, hinv, expectedRowCol, hdir2, hrow0]
    · rw [if_neg hlt] at hfind hq
      obtain ⟨hy1, hy2, hrec⟩ :=
        ih (a0.y + a0.height) hrest (row - e0.rowCount) rowCol
          (acc + e0.rowCount) e a lr hfind hok px py hq
      refine ⟨by omega, hy2, ?_⟩
      rw [childAtCoordAux_cons]
      have hnc : ¬ a0.containsPos a0.x py := by
        rw [Rect.containsPos]
        rintro ⟨-, -, -, h4⟩
        omega
      rw [if_neg hnc, hrec]
      have hacc : acc + e0.rowCount + (row - e0.rowCount) = acc + row := by
        omega
      rw [hacc]

/-- For a valid position, the `row_col` that `child_at_coordinate` reports
for the resolved element equals the position's own `row_col`. -/
lemma expectedRowCol_of_valid {c : Column} {p : ColPos} {e : El} {lr : Nat}
    (hv : c.validPosB p = true)
    (hfind : findRowAux p.row c.elements = some (e, lr)) :
    expectedRowCol e p.rowCol = p.rowCol := by
  rw [Column.validPosB, Bool.and_eq_true] at hv
  obtain ⟨h1, h2⟩ := hv
  have hge : c.getElement p = some (e, elChildIdx e lr p.rowCol) := by
    rw [Column.getElement_eq_find]
    simp [hfind]
  rw [hge] at h2
  cases e with
  | simple s =>
    simp only [decide_eq_true_eq] at h2
    rw [expectedRowCol, h2]
  | group g =>
    by_cases hd : g.dir = Direction.horizontal
    · rw [expectedRowCol, if_pos hd]
    · simp only [if_neg hd, decide_eq_true_eq] at h2
      rw [expectedRowCol, if_neg hd, h2]

/-- C5 (amended): the centre point returned by `child_pos` for a valid
position maps back to the same position through `child_at_coordinate`,
provided the column's area has positive width and the addressed child
satisfies the target contract (positive rectangle height for a simple
element; the §4.1 centre/inverse contract for a group). -/
theorem c5_round_trip (c : Column) (area : Rect) (p : ColPos)
    (hw : 0 < area.width)
    (hv : c.validPosB p = true)
    (hok : targetOkAt c area p) :
    c.childAtCoordinate area (c.childPos area p).1 (c.childPos area p).2 =
      p := by
  have hrow : p.row < c.rowCount := Column.validPosB_row hv
  obtain ⟨e, lr, hfind⟩ := findRowAux_isSome p.row c.elements hrow
  have hlen : c.elements.length = (vsplitRects area c.heights).length := by
    rw [vsplitRects_length, Column.heights, List.length_map]
  obtain ⟨a, hpair⟩ := findPairAux_of_findRow hlen hfind
  have hpair2 : findPairAux p.row (c.iterLayout area) = some (e, a, lr) := by
    rw [Column.iterLayout]
    exact hpair
  have hokp : elTargetOk p.rowCol e a lr := by
    rw [targetOkAt, hpair2] at hok
    exact hok
  have hcons : consecPairs area.x area.width area.y (c.iterLayout area) := by
    rw [Column.iterLayout, vsplitRects]
    exact consecPairs_of_consecFrom area.x area.width c.elements _ area.y
      (stackVert_consec area.x area.width _ area.y)
  obtain ⟨-, -, hmain⟩ := roundTripAux area.x area.width hw
    (c.iterLayout area) area.y hcons p.row p.rowCol 0 e a lr hpair2 hokp
    (c.childPos area p).1 (c.childPos area p).2 rfl
  rw [Column.childAtCoordinate, hmain, expectedRowCol_of_valid hv hfind,
    Nat.zero_add]

/-- C5 is falsified as stated: in `ceColumnB` the first element receives a
zero-height rectangle, its centre (the first row's `child_pos`) falls into
the second element's rectangle, and `child_at_coordinate` resolves it to
row 1 instead of row 0. -/
theorem c5_counterexample :
    ceColumnB.validPosB ⟨0, 0⟩ = true ∧
    ceColumnB.childPos ⟨0, 0, 10, 10⟩ ⟨0, 0⟩ = (5, 0) ∧
    ceColumnB.childAtCoordinate ⟨0, 0, 10, 10⟩ 5 0 = ⟨1, 0⟩ ∧
    (⟨1, 0⟩ : ColPos) ≠ ⟨0, 0⟩ := by
  decide

/-- Witness for `c5_round_trip` on a one-element column. -/
theorem c5_round_trip_witness :
    c6Column.childAtCoordinate ⟨0, 0, 10, 10⟩
        (c6Column.childPos ⟨0, 0, 10, 10⟩ ⟨0, 0⟩).1
        (c6Column.childPos ⟨0, 0, 10, 10⟩ ⟨0, 0⟩).2 = ⟨0, 0⟩ :=
  c5_round_trip c6Column ⟨0, 0, 10, 10⟩ ⟨0, 0⟩ (by decide) (by decide)
    (by decide)

/-- `cmpNat` agrees with `cmpQ` under the cast into `ℚ`. -/
lemma cmpNat_cast (a b : Nat) : cmpNat a b = cmpQ (a : ℚ) (b : ℚ) := by
  rw [cmpNat, cmpQ]
  by_cases h1 : a < b
  · simp [h1, (Nat.cast_lt (α := ℚ)).mpr h1]
  · have h1q : ¬ ((a : ℚ) < b) := by exact_mod_cast h1
    by_cases h2 : b < a
    · simp [h1, h1q, h2, (Nat.cast_lt (α := ℚ)).mpr h2]
    · have h2q : ¬ ((b : ℚ) < a) := by exact_mod_cast h2
      simp [h1, h1q, h2, h2q]

/-- `compare_constraints` is the lexicographic comparison of kind rank
(`Max > Length > Min > Percentage > Ratio > Fill`) and then of the
within-kind key (magnitude; f32 quotient for ratios). -/
lemma compareConstraints_lex (a b : Constraint) :
    compareConstraints a b =
      if constraintRank a < constraintRank b then .lt
      else if constraintRank b < constraintRank a then .gt
      else (constraintKey a).totalCmp (constraintKey b) := by
  cases a <;> cases b <;> first | rfl | exact cmpNat_cast _ _

/-- A non-`lt` answer of `cmpQ` bounds the right side by the left. -/
lemma cmpQ_le_of_not_lt {a b : ℚ} (h : cmpQ a b ≠ .lt) : b ≤ a := by
  rw [cmpQ] at h
  by_cases h1 : a < b
  · simp [h1] at h
  · exact le_of_not_lt h1

/-- A bound on the right side makes `cmpQ` answer non-`lt`. -/
lemma cmpQ_not_lt_of_le {a b : ℚ} (h : b ≤ a) : cmpQ a b ≠ .lt := by
  rw [cmpQ]
  by_cases h1 : a < b
  · exact absurd h (not_le.mpr h1)
  · by_cases h2 : b < a <;> simp [h1, h2]

/-- A strictly smaller right side makes `cmpQ` answer `gt`. -/
lemma cmpQ_gt_of_lt {a b : ℚ} (h : b < a) : cmpQ a b = .gt := by
  rw [cmpQ]
  simp [asymm h, h]

/-- Swapping a non-`gt` `total_cmp` answer yields non-`lt`. -/
lemma F32.totalCmp_swap_not {a b : F32} (h : a.totalCmp b ≠ .gt) :
    b.totalCmp a ≠ .lt := by
  cases a <;> cases b <;> simp only [F32.totalCmp] at h ⊢ <;>
    first
    | exact absurd rfl h
    | decide
    | exact cmpQ_not_lt_of_le (le_of_not_lt fun hba => h (cmpQ_gt_of_lt hba))

/-- `total_cmp`'s non-`lt` answers compose transitively. -/
lemma F32.totalCmp_not_lt_trans {a b c : F32} (h1 : a.totalCmp b ≠ .lt)
    (h2 : b.totalCmp c ≠ .lt) : a.totalCmp c ≠ .lt := by
  cases a <;> cases b <;> cases c <;>
    simp only [F32.totalCmp] at h1 h2 ⊢ <;>
    first
    | exact absurd rfl h1
    | exact absurd rfl h2
    | decide
    | exact cmpQ_not_lt_of_le
        (le_trans (cmpQ_le_of_not_lt h2) (cmpQ_le_of_not_lt h1))

/-- A constraint compares equal to itself. -/
lemma compareConstraints_self (c : Constraint) :
    compareConstraints c c = .eq := by
  rw [compareConstraints_lex, if_neg (lt_irrefl _), if_neg (lt_irrefl _)]
  cases hk : constraintKey c <;> simp [F32.totalCmp, cmpQ]

/-- Swapping a non-`gt` constraint comparison yields non-`lt`. -/
lemma compareConstraints_swap_not {a b : Constraint}
    (h : compareConstraints a b ≠ .gt) : compareConstraints b a ≠ .lt := by
  rw [compareConstraints_lex] at h ⊢
  by_cases h1 : constraintRank a < constraintRank b
  · rw [if_neg (by omega), if_pos (by omega)]
    decide
  · by_cases h2 : constraintRank b < constraintRank a
    · rw [if_neg h1, if_pos h2] at h
      exact absurd rfl h
    · rw [if_neg h1, if_neg h2] at h
      rw [if_neg (by omega), if_neg (by omega)]
      exact F32.totalCmp_swap_not h

/-- Non-`lt` constraint comparisons compose transitively. -/
lemma compareConstraints_not_lt_trans {a b c : Constraint}
    (h1 : compareConstraints a b ≠ .lt)
    (h2 : compareConstraints b c ≠ .lt) :
    compareConstraints a c ≠ .lt := by
  rw [compareConstraints_lex] at h1 h2 ⊢
  by_cases p1 : constraintRank a < constraintRank b
  · rw [if_pos p1] at h1
    exact absurd rfl h1
  · by_cases p2 : constraintRank b < constraintRank c
    · rw [if_pos p2] at h2
      exact absurd rfl h2
    · by_cases q1 : constraintRank b < constraintRank a
      · rw [if_neg (by omega), if_pos (by omega)]
        decide
      · by_cases q2 : constraintRank c < constraintRank b
        · rw [if_neg (by omega), if_pos (by omega)]
          decide
        · rw [if_neg p1, if_neg q1] at h1
          rw [if_neg p2, if_neg q2] at h2
          rw [if_neg (by omega), if_neg (by omega)]
          exact F32.totalCmp_not_lt_trans h1 h2

/-- The `max_by` fold keeps a value that is not below `d` if the seed is
not below `d`. -/
lemma width_foldl_ge (cs : List Constraint) : ∀ (c d : Constraint),
    compareConstraints c d ≠ .lt →
    compareConstraints
      (cs.foldl
        (fun acc x => if compareConstraints acc x = .gt then acc else x) c)
      d ≠ .lt := by
  induction cs with
  | nil => intro c d h; exact h
  | cons x cs ih =>
    intro c d h
    rw [List.foldl_cons]
    apply ih
    by_cases hgt : compareConstraints c x = .gt
    · simpa [hgt] using h
    · have hxc : compareConstraints x c ≠ .lt :=
        compareConstraints_swap_not hgt
      have htr := compareConstraints_not_lt_trans hxc h
      simpa [hgt] using htr

/-- The `max_by` fold result is not below any traversed element. -/
lemma width_foldl_ge_mem (cs : List Constraint) : ∀ (c d : Constraint),
    d ∈ cs →
    compareConstraints
      (cs.foldl
        (fun acc x => if compareConstraints acc x = .gt then acc else x) c)
      d ≠ .lt := by
  induction cs with
  | nil => intro c d hd; simp at hd
  | cons x cs ih =>
    intro c d hd
    rw [List.foldl_cons]
    rcases List.mem_cons.mp hd with rfl | hmem
    · apply width_foldl_ge
      by_cases hgt : compareConstraints c d = .gt
      · simp [hgt]
      · simp [hgt, compareConstraints_self]
    · exact ih _ d hmem

/-- The `max_by` fold result is the seed or one of the elements. -/
lemma width_foldl_mem (cs : List Constraint) : ∀ (c : Constraint),
    cs.foldl (fun acc x => if compareConstraints acc x = .gt then acc else x)
      c ∈ c :: cs := by
  induction cs with
  | nil => intro c; simp
  | cons x cs ih =>
    intro c
    rw [List.foldl_cons]
    rcases List.mem_cons.mp (ih (if compareConstraints c x = .gt then c
      else x)) with h | h
    · rw [h]
      by_cases hgt : compareConstraints c x = .gt
      · simp [hgt]
      · simp [hgt]
    · simp [List.mem_cons.mpr (Or.inr (List.mem_cons.mpr (Or.inr h)))]

/-- C8 (amended): for a nonempty column, `Column::width` is one of the
children's width constraints and compares not-below every one of them
under `compare_constraints`; `compare_constraints` orders by kind rank
(`Max > Length > Min > Percentage > Ratio > Fill`) first, and within the
`Ratio` kind it compares the f32 quotients of the legs. -/
theorem c8_width_most_constraining (c : Column) (hne : c.widths ≠ []) :
    c.width ∈ c.widths ∧
    (∀ d ∈ c.widths, compareConstraints c.width d ≠ .lt) ∧
    (∀ a b : Constraint, constraintRank b < constraintRank a →
      compareConstraints a b = .gt) ∧
    (∀ a1 a2 b1 b2 : Nat,
      compareConstraints (.ratio a1 a2) (.ratio b1 b2) =
        (ratioF32 a1 a2).totalCmp (ratioF32 b1 b2)) := by
  rcases hcs : c.widths with _ | ⟨w, ws⟩
  · exact absurd hcs hne
  · have hwidth : c.width = ws.foldl
        (fun acc x => if compareConstraints acc x = .gt then acc else x) w := by
      rw [Column.width, hcs, listMaxBy]
      rfl
    refine ⟨?_, ?_, ?_, ?_⟩
    · rw [hwidth]
      exact width_foldl_mem ws w
    · intro d hd
      rw [hwidth]
      rcases List.mem_cons.mp hd with rfl | hmem
      · exact width_foldl_ge ws d d (by rw [compareConstraints_self]; simp)
      · exact width_foldl_ge_mem ws w d hmem
    · intro a b h
      rw [compareConstraints_lex, if_neg (by omega), if_pos h]
    · intro a1 a2 b1 b2
      rfl

attribute [local semireducible] Rat.mul Rat.add Rat.sub Rat.inv in
/-- C8 is falsified as stated: the exact magnitude of `Ratio(16777217, 1)`
exceeds that of `Ratio(16777216, 1)`, yet the two compare equal through
f32 (`2^24 + 1` rounds to `2^24`), so `Column::width` returns the
*smaller*-magnitude ratio (`max_by` keeps the last of equal maxima) — the
larger magnitude does not win within the `Ratio` kind. -/
theorem c8_counterexample :
    c8Column.width = .ratio 16777216 1 ∧
    (Constraint.ratio 16777216 1) ≠ .ratio 16777217 1 ∧
    compareConstraints (.ratio 16777217 1) (.ratio 16777216 1) = .eq := by
  refine ⟨by decide, by decide, by decide⟩

/-- Witness for `c8_width_most_constraining` on a concrete column. -/
theorem c8_width_most_constraining_witness :
    c8WitnessColumn.width ∈ c8WitnessColumn.widths ∧
    compareConstraints c8WitnessColumn.width (.min 7) ≠ .lt ∧
    compareConstraints (.max 1) (.length 100) = .gt ∧
    compareConstraints (.ratio 1 2) (.ratio 2 4) =
      (ratioF32 1 2).totalCmp (ratioF32 2 4) :=
  ⟨(c8_width_most_constraining c8WitnessColumn (by decide)).1,
   (c8_width_most_constraining c8WitnessColumn (by decide)).2.1 (.min 7)
     (by decide),
   (c8_width_most_constraining c8WitnessColumn (by decide)).2.2.1
     (.max 1) (.length 100) (by decide),
   (c8_width_most_constraining c8WitnessColumn (by decide)).2.2.2 1 2 2 4⟩

/-- Unfolding of the hit-test loop at a cons cell. -/
lemma hitTestAux_cons (x y i : Nat) (c : Column) (a : Rect)
    (rest : List (Column × Rect)) :
    hitTestAux x y i ((c, a) :: rest) =
      if a.x ≤ x ∧ x < a.x + a.width then
        some ⟨i, c.childAtCoordinate a x y⟩
      else hitTestAux x y (i + 1) rest := rfl

/-- The hit-test scan returns the first column whose horizontal extent
contains `x`, paired with that column's `child_at_coordinate` answer. -/
lemma hitTestAux_spec (x y : Nat) :
    ∀ (pairs : List (Column × Rect)) (base i : Nat) (c : Column) (a : Rect),
      pairs.get? i = some (c, a) →
      (a.x ≤ x ∧ x < a.x + a.width) →
      (∀ j, j < i →
        ((pairs.get? j).map
            fun ca => decide (ca.2.x ≤ x ∧ x < ca.2.x + ca.2.width)).getD
          false = false) →
      hitTestAux x y base pairs =
        some ⟨base + i, c.childAtCoordinate a x y⟩ := by
  intro pairs
  induction pairs with
  | nil =>
    intro base i c a hget
    simp at hget
  | cons p rest ih =>
    obtain ⟨c0, a0⟩ := p
    intro base i c a hget hin hb
    rw [hitTestAux_cons]
    cases i with
    | zero =>
      rw [List.get?_cons_zero, Option.some_inj, Prod.mk.injEq] at hget
      obtain ⟨rfl, rfl⟩ := hget
      rw [if_pos hin]
      simp
    | succ n =>
      have h0 := hb 0 (Nat.succ_pos n)
      rw [List.get?_cons_zero, Option.map_some', Option.getD_some] at h0
      rw [if_neg (of_decide_eq_false h0)]
      rw [List.get?_cons_succ] at hget
      have hrec := ih (base + 1) n c a hget hin (fun j hj => by
        have hjj := hb (j + 1) (by omega)
        rw [List.get?_cons_succ] at hjj
        exact hjj)
      rw [hrec]
      have hbn : base + 1 + n = base + (n + 1) := by omega
      rw [hbn]

/-- C9 (spec-modelled): given an absolute point, the mouse hit-test
resolves the first column whose horizontal rectangle contains `x`, obtains
the `ColPos` from that column's `child_at_coordinate (x, y)`, and the
resulting `ElPos` both becomes the new selection and is the position at
which the press is offered to the resolved element's handler. -/
theorem c9_hit_test_press (l : Layout) (area : Rect) (x y i : Nat)
    (c : Column) (a : Rect) (sel : ElPos)
    (hget : (l.iterLayout area).get? i = some (c, a))
    (hin : a.x ≤ x ∧ x < a.x + a.width)
    (hb : ∀ j, j < i →
      (((l.iterLayout area).get? j).map
          fun ca => decide (ca.2.x ≤ x ∧ x < ca.2.x + ca.2.width)).getD
        false = false) :
    l.hitTest area x y = some ⟨i, c.childAtCoordinate a x y⟩ ∧
    l.handlePress area x y sel =
      (⟨i, c.childAtCoordinate a x y⟩,
        l.handle ⟨i, c.childAtCoordinate a x y⟩) := by
  have hh : l.hitTest area x y = some ⟨i, c.childAtCoordinate a x y⟩ := by
    rw [Layout.hitTest]
    have hs := hitTestAux_spec x y (l.iterLayout area) 0 i c a hget hin hb
    simpa using hs
  exact ⟨hh, by rw [Layout.handlePress, hh]⟩

/-- Witness for `c9_hit_test_press`: a click at (20, 40) in the
three-column scenario selects the middle element of the second column, and
the press is dispatched to that element's handler. -/
theorem c9_hit_test_press_witness :
    scenarioLayout.hitTest ⟨0, 0, 48, 64⟩ 20 40 = some ⟨1, ⟨1, 0⟩⟩ ∧
    scenarioLayout.handlePress ⟨0, 0, 48, 64⟩ 20 40 ⟨0, ⟨0, 0⟩⟩ =
      (⟨1, ⟨1, 0⟩⟩, .dflt) :=
  c9_hit_test_press scenarioLayout ⟨0, 0, 48, 64⟩ 20 40 1 _ ⟨16, 0, 16, 64⟩
    ⟨0, ⟨0, 0⟩⟩ rfl (by decide) (by decide)

/-- `pushLast` preserves the number of columns. -/
lemma pushLast_length (e : El) : ∀ (cols : List Column),
    (pushLast cols e).length = cols.length := by
  intro cols
  induction cols with
  | nil => rfl
  | cons c rest ih =>
    cases rest with
    | nil => rfl
    | cons c2 rest2 =>
      simp only [pushLast, List.length_cons]
      simp only [pushLast, List.length_cons] at ih
      omega

/-- C10: every layout reachable through the construction API has at least
one column, so for every position the clamped column lookup succeeds and
`Layout::clamp_selected` takes the column branch — its default fallback is
unreachable (and the default position (0,0,0) addresses column 0). -/
theorem c10_construction_nonempty (l : Layout) (hr : Reachable l)
    (p : ElPos) :
    0 < l.columns.length ∧
    (l.columns.get? (min p.col (l.columns.length - 1))).isSome = true ∧
    l.clampSelected p = ⟨min p.col (l.columns.length - 1),
      ((l.columns.get? (min p.col (l.columns.length - 1))).getD
        ⟨[]⟩).clampSelected p.pos⟩ := by
  have hlen : 0 < l.columns.length := by
    induction hr with
    | new => simp [Layout.new]
    | modal t d b hrr ih => simpa [Layout.modal] using ih
    | addEl s hrr ih => simpa [Layout.addEl, pushLast_length] using ih
    | addGroup g hrr ih => simpa [Layout.addGroup, pushLast_length] using ih
    | addColumn hrr ih => simp [Layout.addColumn]
  have hlt : min p.col (l.columns.length - 1) < l.columns.length := by omega
  obtain ⟨c, hc⟩ :
      ∃ c, l.columns.get? (min p.col (l.columns.length - 1)) = some c := by
    rcases hg : l.columns.get? (min p.col (l.columns.length - 1)) with _ | c
    · rw [List.get?_eq_none] at hg
      omega
    · exact ⟨c, rfl⟩
  refine ⟨hlen, by rw [hc]; rfl, ?_⟩
  rw [Layout.clampSelected]
  simp only [hc, Option.getD_some]

/-- Witness for `c10_construction_nonempty` on `new` plus one
`add_column`, with an out-of-range position. -/
theorem c10_construction_nonempty_witness :
    0 < Layout.new.addColumn.columns.length ∧
    (Layout.new.addColumn.columns.get? 1).isSome = true ∧
    Layout.new.addColumn.clampSelected ⟨3, ⟨0, 0⟩⟩ = ⟨1, ⟨0, 0⟩⟩ :=
  c10_construction_nonempty Layout.new.addColumn
    (Reachable.addColumn Reachable.new) ⟨3, ⟨0, 0⟩⟩

end Chshtui
